import Mathlib

/-!
Verification of the InstaFlow scheduler core (`src/scheduler.py` and the
rate gate in `src/bot/instagram.py`).

The Python code is shallowly embedded: strings are `String`/`List Char`,
Python `dict` (insertion ordered) is an association list, timestamps are
`Int` seconds, and the third-party `schedule` library's next-fire
computation (external to the repository) is modelled from the spec.
-/

namespace InstaFlow

/-! ### Python string primitives, embedded over `List Char` -/

/-- Python whitespace predicate used by `str.split()` with no argument. -/
def isPyWS (c : Char) : Bool :=
  c = ' ' ∨ c = '\t' ∨ c = '\n' ∨ c = '\r'

/-- Auxiliary for `wsSplit`: `acc` is the current token, reversed. -/
def wsSplitAux : List Char → List Char → List (List Char)
  | acc, [] => if acc.isEmpty then [] else [acc.reverse]
  | acc, c :: rest =>
    if isPyWS c then
      if acc.isEmpty then wsSplitAux [] rest
      else acc.reverse :: wsSplitAux [] rest
    else wsSplitAux (c :: acc) rest

/-- Python `str.split()` (no separator): split on whitespace runs, dropping
empty tokens. -/
def wsSplit (s : List Char) : List (List Char) := wsSplitAux [] s

/-- Python `str.startswith(pat)`: first argument is the pattern. -/
def startsWithL : List Char → List Char → Bool
  | [], _ => true
  | _ :: _, [] => false
  | p :: ps, c :: cs => p = c && startsWithL ps cs

/-- ASCII lower-casing of one character (Python `str.lower()` on ASCII). -/
def lowerCh (c : Char) : Char :=
  if 'A' ≤ c ∧ c ≤ 'Z' then Char.ofNat (c.toNat + 32) else c

/-- Python `str.lower()` (ASCII fragment, which is all the code feeds it). -/
def toLowerL (s : List Char) : List Char := s.map lowerCh

/-- Python `str.rstrip('s')`: remove every trailing `'s'`. -/
def rstripS (s : List Char) : List Char :=
  (s.reverse.dropWhile (fun c => c = 's')).reverse

/-- Python `str.strip()`: remove leading and trailing whitespace. -/
def stripL (s : List Char) : List Char :=
  ((s.dropWhile isPyWS).reverse.dropWhile isPyWS).reverse

/-- Auxiliary for `splitOnAt`: `acc` is the current piece, reversed.
Leftmost non-overlapping occurrences of the two-character separator, as in
Python `str.split('at')`. -/
def splitOnAtAux : List Char → List Char → List (List Char)
  | acc, 'a' :: 't' :: rest => acc.reverse :: splitOnAtAux [] rest
  | acc, c :: rest => splitOnAtAux (c :: acc) rest
  | acc, [] => [acc.reverse]

/-- Python `str.split('at')`: split on each occurrence of the substring
`"at"` (also inside words, e.g. inside `"saturday"`), keeping empty pieces. -/
def splitOnAt (s : List Char) : List (List Char) := splitOnAtAux [] s

/-- Python `str.replace("daily at", "")`: delete every occurrence. -/
def stripDailyAt : List Char → List Char
  | 'd' :: 'a' :: 'i' :: 'l' :: 'y' :: ' ' :: 'a' :: 't' :: rest => stripDailyAt rest
  | c :: rest => c :: stripDailyAt rest
  | [] => []

/-- Python `str.replace("weekly on", "")`: delete every occurrence. -/
def stripWeeklyOn : List Char → List Char
  | 'w' :: 'e' :: 'e' :: 'k' :: 'l' :: 'y' :: ' ' :: 'o' :: 'n' :: rest => stripWeeklyOn rest
  | c :: rest => c :: stripWeeklyOn rest
  | [] => []

/-- Decimal value of a digit run; `none` when empty or a non-digit occurs. -/
def digitsVal : List Char → Option Nat
  | [] => none
  | [c] => if c.isDigit then some (c.toNat - '0'.toNat) else none
  | c :: rest =>
    if c.isDigit then
      match digitsVal rest with
      | some v => some ((c.toNat - '0'.toNat) * 10 ^ rest.length + v)
      | none => none
    else none

/-- Python `int(str)`: optional surrounding whitespace, optional sign, then
decimal digits; raises (here `none`) otherwise. -/
def pyInt (s : List Char) : Option Int :=
  match stripL s with
  | '-' :: rest => (digitsVal rest).map (fun v => -(v : Int))
  | '+' :: rest => (digitsVal rest).map (fun v => (v : Int))
  | rest => (digitsVal rest).map (fun v => (v : Int))

/-- Modelled from the spec: the `schedule` library's `.at()` wall-clock time
parser is not part of this repository; per the spec a time string must parse
as `HH:MM` (24-hour). -/
def parseTimeHHMM (s : List Char) : Option (Nat × Nat) :=
  match s with
  | [h1, h2, ':', m1, m2] =>
    if h1.isDigit ∧ h2.isDigit ∧ m1.isDigit ∧ m2.isDigit then
      let h := (h1.toNat - '0'.toNat) * 10 + (h2.toNat - '0'.toNat)
      let m := (m1.toNat - '0'.toNat) * 10 + (m2.toNat - '0'.toNat)
      if h ≤ 23 ∧ m ≤ 59 then some (h, m) else none
    else none
  | _ => none

/-! ### Cadence parsing (`Scheduler._schedule_all_jobs`, lines 661-744) -/

/-- Time units accepted by the `every N unit` form. -/
inductive TUnit where
  | second | minute | hour | day | week
  deriving DecidableEq, Repr

/-- The recurrence rule a cadence string denotes. -/
inductive Cadence where
  /-- `every N unit`; `n` is the Python `int(...)` of the second token. -/
  | every (n : Int) (u : TUnit)
  /-- `daily at HH:MM`. -/
  | daily (h m : Nat)
  /-- `weekly on DAY at HH:MM`; `d` is the weekday, Monday = 0. -/
  | weekly (d : Nat) (h m : Nat)
  deriving DecidableEq, Repr

/-- Unit-name lookup after `.lower().rstrip('s')`, as in the source. -/
def unitOf (s : List Char) : Option TUnit :=
  if s = "second".toList then some .second
  else if s = "minute".toList then some .minute
  else if s = "hour".toList then some .hour
  else if s = "day".toList then some .day
  else if s = "week".toList then some .week
  else none

/-- Day-name lookup, as in the source's `elif` chain (Monday = 0). -/
def dayOf (s : List Char) : Option Nat :=
  if s = "monday".toList then some 0
  else if s = "tuesday".toList then some 1
  else if s = "wednesday".toList then some 2
  else if s = "thursday".toList then some 3
  else if s = "friday".toList then some 4
  else if s = "saturday".toList then some 5
  else if s = "sunday".toList then some 6
  else none

/-- Outcome of one iteration's parse section in `_schedule_all_jobs`. -/
inductive ParseOutcome where
  /-- A fresh `scheduled_job` was bound for this cadence. -/
  | ok (c : Cadence)
  /-- `continue` was executed or an exception was raised before
  `scheduled_job.do(...)`: the job is skipped. -/
  | reject
  /-- The `every` branch with fewer than three tokens binds nothing and
  falls through to `scheduled_job.do(...)` with `scheduled_job` still
  holding its value from a previous loop iteration (Python local-variable
  scope), or unbound (`NameError`) on the first such iteration. -/
  | fallthrough
  deriving DecidableEq, Repr

/-- The parse section of `Scheduler._schedule_all_jobs` for one job's
`schedule_at` string (source lines 673-733). -/
def parseSchedule (s : String) : ParseOutcome :=
  let cs := s.toList
  let parts := wsSplit cs
  if startsWithL "every".toList cs then
    match parts with
    | _ :: p1 :: p2 :: _ =>
      match pyInt p1 with
      | none => .reject
      | some n =>
        match unitOf (rstripS (toLowerL p2)) with
        | some u => .ok (.every n u)
        | none => .reject
    | _ => .fallthrough
  else if startsWithL "daily at".toList cs then
    match parseTimeHHMM (stripL (stripDailyAt cs)) with
    | some (h, m) => .ok (.daily h m)
    | none => .reject
  else if startsWithL "weekly on".toList cs then
    match splitOnAt (stripL (stripWeeklyOn cs)) with
    | [dpart, tpart] =>
      match dayOf (toLowerL (stripL dpart)), parseTimeHHMM (stripL tpart) with
      | some d, some (h, m) => .ok (.weekly d h m)
      | _, _ => .reject
    | _ => .reject
  else .reject

/-! ### The spec's cadence grammar (for comparison with the parser)

This definition follows the WORDS of the spec (§4.1), not the source: the
grammar is case-insensitive and whitespace-delimited, with forms
`every <N> <unit>`, `daily at <HH:MM>`, `weekly on <day> at <HH:MM>`. -/

/-- Unit names of the grammar: `second(s)`, `minute(s)`, `hour(s)`,
`day(s)`, `week(s)` — exactly one optional trailing `s`. -/
def specUnitNames : List (List Char) :=
  ["second".toList, "seconds".toList, "minute".toList, "minutes".toList,
   "hour".toList, "hours".toList, "day".toList, "days".toList,
   "week".toList, "weeks".toList]

/-- The seven weekday names of the grammar. -/
def specDayNames : List (List Char) :=
  ["monday".toList, "tuesday".toList, "wednesday".toList, "thursday".toList,
   "friday".toList, "saturday".toList, "sunday".toList]

/-- Membership of a cadence string in the spec's grammar (§4.1):
case-insensitive, whitespace-delimited; `N` is a positive decimal numeral. -/
def specGrammarValid (s : String) : Bool :=
  match wsSplit (toLowerL s.toList) with
  | [w0, w1, w2] =>
    if w0 = "every".toList then
      (match digitsVal w1 with | some v => decide (1 ≤ v) | none => false)
        && specUnitNames.contains w2
    else if w0 = "daily".toList ∧ w1 = "at".toList then
      (parseTimeHHMM w2).isSome
    else false
  | [w0, w1, w2, w3, w4] =>
    w0 = "weekly".toList && w1 = "on".toList && specDayNames.contains w2
      && w3 = "at".toList && (parseTimeHHMM w4).isSome
  | _ => false

/-! ### Next-fire computation

The recurrence arithmetic lives in the third-party `schedule` library, not
in this repository, so it is modelled from the spec. Instants are `Int`
seconds counted from 2024-01-01T00:00:00, which was a Monday. -/

/-- Seconds per unit. -/
def unitSecs : TUnit → Nat
  | .second => 1
  | .minute => 60
  | .hour => 3600
  | .day => 86400
  | .week => 604800

/-- Modelled from the spec: the `schedule` library's next-fire computation
(missing from the repository). `every N unit` fires N units from the
reference; `daily at HH:MM` fires at the next instant with that wall-clock
time; `weekly on DAY at HH:MM` fires at the next such instant on that
weekday. -/
def nextFire (c : Cadence) (ref : Int) : Int :=
  match c with
  | .every n u => ref + n * (unitSecs u : Int)
  | .daily h m =>
    let dayStart := (ref.ediv 86400) * 86400
    let cand := dayStart + ((h * 3600 + m * 60 : Nat) : Int)
    if ref < cand then cand else cand + 86400
  | .weekly d h m =>
    let dayStart := (ref.ediv 86400) * 86400
    let dow := (ref.ediv 86400).emod 7
    let ahead := ((d : Int) - dow).emod 7
    let cand := dayStart + ahead * 86400 + ((h * 3600 + m * 60 : Nat) : Int)
    if ref < cand then cand else cand + 604800

/-! ### Data model (`JobDefinition`, `JobResult`, source lines 25-189) -/

/-- A job's `function` field: either an opaque callable handle or a
`module.function`-style string path (source `Union[str, Callable]`). -/
inductive FuncRef where
  /-- An opaque callable; `modName`/`fnName` are its `__module__` and
  `__name__`, which is all `to_dict` observes of it. -/
  | callable (modName fnName : String)
  /-- A resolvable string path. -/
  | path (s : String)
  deriving DecidableEq, Repr

/-- `JobDefinition` (source lines 25-67). Opaque serializable payloads
(`args` elements, `kwargs` values) are a type parameter `α`; timestamps are
`Int` instants (the source stores formatted timestamp strings). -/
structure JobDefinition (α : Type) where
  name : String
  function : FuncRef
  schedule_at : String
  args : List α
  kwargs : List (String × α)
  enabled : Bool
  tags : List String
  description : String
  last_run : Option Int := none
  last_status : Option String := none
  next_run : Option Int := none
  run_count : Nat := 0
  deriving DecidableEq, Repr

/-- The dictionary produced by `JobDefinition.to_dict` (source lines 69-95);
the `function` slot is always a string there. -/
structure JobDict (α : Type) where
  name : String
  function : String
  schedule_at : String
  args : List α
  kwargs : List (String × α)
  enabled : Bool
  tags : List String
  description : String
  last_run : Option Int
  last_status : Option String
  next_run : Option Int
  run_count : Nat
  deriving DecidableEq, Repr

/-- `JobDefinition.to_dict`: a callable is rendered as
`module.name`; every other field is copied. -/
def JobDefinition.to_dict {α : Type} (j : JobDefinition α) : JobDict α :=
  { name := j.name
    function :=
      match j.function with
      | .callable m f => m ++ "." ++ f
      | .path s => s
    schedule_at := j.schedule_at
    args := j.args
    kwargs := j.kwargs
    enabled := j.enabled
    tags := j.tags
    description := j.description
    last_run := j.last_run
    last_status := j.last_status
    next_run := j.next_run
    run_count := j.run_count }

/-- `JobDefinition.from_dict` (source lines 97-125): the `function` slot is
taken as a string path; runtime tracking fields are restored. -/
def JobDefinition.from_dict {α : Type} (d : JobDict α) : JobDefinition α :=
  { name := d.name
    function := .path d.function
    schedule_at := d.schedule_at
    args := d.args
    kwargs := d.kwargs
    enabled := d.enabled
    tags := d.tags
    description := d.description
    last_run := d.last_run
    last_status := d.last_status
    next_run := d.next_run
    run_count := d.run_count }

/-- `JobResult` (source lines 128-158). -/
structure JobResult (α : Type) where
  job_name : String
  start_time : Int
  end_time : Option Int := none
  success : Option Bool := none
  result : Option α := none
  error : Option String := none
  deriving DecidableEq, Repr

/-- `JobResult.complete` (source lines 176-188): stamp the end time and set
the outcome fields. -/
def JobResult.complete {α : Type} (r : JobResult α) (t : Int) (success : Bool)
    (result : Option α) (error : Option String) : JobResult α :=
  { r with end_time := some t, success := some success,
           result := result, error := error }

/-! ### Association-list model of the Python `dict` (insertion ordered) -/

/-- First value bound to `k`, scanning left to right. -/
def lookupKey {β : Type} : List (String × β) → String → Option β
  | [], _ => none
  | (k, v) :: rest, k' => if k = k' then some v else lookupKey rest k'

/-- `k in d` for the Python dict. -/
def containsKey {β : Type} (m : List (String × β)) (k : String) : Bool :=
  (lookupKey m k).isSome

/-- `d[k] = v` for the Python dict: overwrite in place when the key exists
(order preserved), otherwise append at the end. -/
def dictSet {β : Type} (m : List (String × β)) (k : String) (v : β) :
    List (String × β) :=
  if containsKey m k then
    m.map (fun p => if p.1 = k then (k, v) else p)
  else m ++ [(k, v)]

/-- `del d[k]` for the Python dict. -/
def dictDel {β : Type} (m : List (String × β)) (k : String) :
    List (String × β) :=
  m.filter (fun p => p.1 ≠ k)

/-! ### Scheduler state (source lines 191-226) -/

/-- The mutable state of a `Scheduler` instance, together with the pieces of
process state it drives: the `schedule` library's registry of recurrences
(`registered`) and the number of worker threads ever spawned (`threads`). -/
structure Scheduler (α : Type) where
  jobs : List (String × JobDefinition α)
  job_results : List (JobResult α)
  running : Bool := false
  threads : Nat := 0
  registered : List (String × Cadence) := []
  deriving Repr

/-! ### Job execution (`Scheduler._run_job`, source lines 364-412) -/

/-- The effect of `_run_job` on the job object and the fresh `JobResult`.
`outcome` is what `_resolve_function` plus the call produce: `.ok v` for a
normal return of `v`, `.error e` when resolution or the call raises with
message `e` (everything is caught by the `except Exception` block).
`t` is the start timestamp, `t'` the completion timestamp. -/
def runJob {α : Type} (t t' : Int) (outcome : Except String α)
    (j : JobDefinition α) : JobDefinition α × JobResult α :=
  let r : JobResult α := { job_name := j.name, start_time := t }
  match outcome with
  | .ok v =>
    ({ j with last_run := some r.start_time, last_status := some "success",
              run_count := j.run_count + 1 },
     r.complete t' true (some v) none)
  | .error e =>
    ({ j with last_run := some r.start_time, last_status := some "failed",
              run_count := j.run_count + 1 },
     r.complete t' false none (some e))

/-- `_run_job` at the state level: the job object aliased in `self.jobs` is
mutated and the result is appended to `self.job_results`. -/
def runJobState {α : Type} (t t' : Int) (outcome : Except String α)
    (s : Scheduler α) (k : String) (j : JobDefinition α) : Scheduler α :=
  let (j', r) := runJob t t' outcome j
  { s with jobs := dictSet s.jobs k j', job_results := s.job_results ++ [r] }

/-- `Scheduler.run_job_now` (source lines 635-659): `none` when the name is
unknown, otherwise run the job and return the most recent result bearing
that name (the source scans `reversed(self.job_results)`). -/
def run_job_now {α : Type} (t t' : Int) (outcome : Except String α)
    (s : Scheduler α) (name : String) : Scheduler α × Option (JobResult α) :=
  match lookupKey s.jobs name with
  | none => (s, none)
  | some j =>
    let s' := runJobState t t' outcome s name j
    (s', s'.job_results.reverse.find? (fun r => r.job_name = name))

/-! ### Store mutation (`add_job`/`remove_job`/`update_job`/`get_job`,
source lines 414-567) -/

/-- `Scheduler.add_job` (source lines 414-467): raises (`.error`) on a
duplicate name, leaving the state untouched; otherwise stores and returns
the freshly constructed `JobDefinition` (optional parameters defaulted as
in `JobDefinition.__init__`). -/
def add_job {α : Type} (s : Scheduler α) (name : String) (function : FuncRef)
    (schedule_at : String) (args : Option (List α))
    (kwargs : Option (List (String × α))) (enabled : Bool)
    (tags : Option (List String)) (description : Option String) :
    Scheduler α × Except String (JobDefinition α) :=
  if containsKey s.jobs name then
    (s, .error "duplicate job name")
  else
    let j : JobDefinition α :=
      { name := name, function := function, schedule_at := schedule_at,
        args := args.getD [], kwargs := kwargs.getD [],
        enabled := enabled, tags := tags.getD [],
        description := description.getD "" }
    ({ s with jobs := s.jobs ++ [(name, j)] }, .ok j)

/-- `Scheduler.remove_job` (source lines 469-491). -/
def remove_job {α : Type} (s : Scheduler α) (name : String) :
    Scheduler α × Bool :=
  if containsKey s.jobs name then
    ({ s with jobs := dictDel s.jobs name }, true)
  else (s, false)

/-- The field updates `update_job` applies to the looked-up job: exactly the
parameters passed non-`None`; the runtime tracking fields and the name are
never touched. -/
def applyUpdate {α : Type} (j : JobDefinition α) (function : Option FuncRef)
    (schedule_at : Option String) (args : Option (List α))
    (kwargs : Option (List (String × α))) (enabled : Option Bool)
    (tags : Option (List String)) (description : Option String) :
    JobDefinition α :=
  { j with function := function.getD j.function,
           schedule_at := schedule_at.getD j.schedule_at,
           args := args.getD j.args,
           kwargs := kwargs.getD j.kwargs,
           enabled := enabled.getD j.enabled,
           tags := tags.getD j.tags,
           description := description.getD j.description }

/-- `Scheduler.update_job` (source lines 493-555): raises (`.error`) when
the name is absent; otherwise mutates the stored job in place and returns
it. -/
def update_job {α : Type} (s : Scheduler α) (name : String)
    (function : Option FuncRef) (schedule_at : Option String)
    (args : Option (List α)) (kwargs : Option (List (String × α)))
    (enabled : Option Bool) (tags : Option (List String))
    (description : Option String) :
    Scheduler α × Except String (JobDefinition α) :=
  match lookupKey s.jobs name with
  | none => (s, .error "job not found")
  | some j =>
    let j' := applyUpdate j function schedule_at args kwargs enabled tags
      description
    ({ s with jobs := dictSet s.jobs name j' }, .ok j')

/-- `Scheduler.get_job` (source lines 557-567). -/
def get_job {α : Type} (s : Scheduler α) (name : String) :
    Option (JobDefinition α) :=
  lookupKey s.jobs name

/-! ### Scheduling pass (`Scheduler._schedule_all_jobs`, lines 661-744) -/

/-- One pass of the `for job in self.jobs.values()` loop of
`_schedule_all_jobs` at instant `now`. `prev` models the Python local
variable `scheduled_job`, which survives across loop iterations: the
`every`-with-fewer-than-three-tokens branch binds nothing and reaches
`scheduled_job.do(...)` with the previous iteration's binding (re-arming the
malformed job on that stale recurrence), or raises `NameError` (caught)
when no binding exists yet. Returns the updated entries and the list of
recurrences registered with the `schedule` library. -/
def schedJobs {α : Type} (now : Int) :
    Option Cadence → List (String × JobDefinition α) →
    List (String × JobDefinition α) × List (String × Cadence)
  | _, [] => ([], [])
  | prev, (k, j) :: rest =>
    if j.enabled then
      match parseSchedule j.schedule_at with
      | .ok c =>
        ((k, { j with next_run := some (nextFire c now) })
            :: (schedJobs now (some c) rest).1,
          (j.name, c) :: (schedJobs now (some c) rest).2)
      | .reject =>
        ((k, j) :: (schedJobs now prev rest).1, (schedJobs now prev rest).2)
      | .fallthrough =>
        match prev with
        | none =>
          ((k, j) :: (schedJobs now prev rest).1, (schedJobs now prev rest).2)
        | some c =>
          ((k, { j with next_run := some (nextFire c now) })
              :: (schedJobs now (some c) rest).1,
            (j.name, c) :: (schedJobs now (some c) rest).2)
    else
      ((k, j) :: (schedJobs now prev rest).1, (schedJobs now prev rest).2)

/-- `Scheduler._schedule_all_jobs`: `schedule.clear()` then the loop above
over the job map in insertion order. -/
def scheduleAllJobs {α : Type} (now : Int) (s : Scheduler α) : Scheduler α :=
  let (jobs', reg) := schedJobs now none s.jobs
  { s with jobs := jobs', registered := reg }

/-! ### Lifecycle (`start`/`stop`, source lines 764-803) -/

/-- `Scheduler.start` (source lines 764-783): a no-op while already running;
otherwise schedule all jobs, set the flag and spawn the worker thread. -/
def Scheduler.start {α : Type} (now : Int) (s : Scheduler α) : Scheduler α :=
  if s.running then s
  else
    let s' := scheduleAllJobs now s
    { s' with running := true, threads := s.threads + 1 }

/-- `Scheduler.stop` (source lines 785-803): a no-op while not running;
otherwise clear the flag, join the worker (bounded, not modelled further)
and `schedule.clear()`. -/
def Scheduler.stop {α : Type} (s : Scheduler α) : Scheduler α :=
  if s.running then { s with running := false, registered := [] }
  else s

/-! ### Result-log retention (`Scheduler._load_results`, lines 283-311) -/

/-- Python `l[-m:]` for a list: with `m = 0` this is the WHOLE list
(`l[-0:] == l[0:]`), otherwise the last `m` elements. -/
def pySliceLast {β : Type} (m : Nat) (l : List β) : List β :=
  if m = 0 then l else l.drop (l.length - m)

/-- The retention step of `_load_results` (source lines 304-307): after
reading the file, keep only the most recent `max_results` when more were
loaded. This is the ONLY place the cap is applied; `_run_job` appends
without trimming. -/
def trimResults {α : Type} (max_results : Nat) (l : List (JobResult α)) :
    List (JobResult α) :=
  if l.length > max_results then pySliceLast max_results l else l

/-! ### Job persistence round trip (source lines 228-281) -/

/-- `Scheduler._save_jobs`: the list written to `jobs.json`. -/
def saveJobs {α : Type} (m : List (String × JobDefinition α)) :
    List (JobDict α) :=
  m.map (fun p => p.2.to_dict)

/-- The loop body of `Scheduler._load_jobs` over a parsed `jobs.json`:
`self.jobs[job.name] = job` for each record. -/
def loadJobs {α : Type} (ds : List (JobDict α)) :
    List (String × JobDefinition α) :=
  ds.foldl (fun m d => dictSet m (JobDefinition.from_dict d).name
    (JobDefinition.from_dict d)) []

/-! ### Rate gate (`InstagramBot._check_rate_limit`,
`src/bot/instagram.py` lines 339-359) -/

/-- `_check_rate_limit`: `limits` is `settings` daily ceiling per category
(`default=0` when unconfigured), `counts` the in-memory
`self._action_counts` with `.get(action_type, 0)` semantics. Returns the
admit decision and the updated counters. -/
def checkRateLimit (limits counts : String → Nat) (action_type : String) :
    Bool × (String → Nat) :=
  if counts action_type ≥ limits action_type then
    (false, counts)
  else
    (true, fun a => if a = action_type then counts action_type + 1
                    else counts a)

/-! ### Association-list lemmas -/

theorem lookupKey_append_some {β : Type} {m l : List (String × β)} {k : String}
    {v : β} (h : lookupKey m k = some v) : lookupKey (m ++ l) k = some v := by
  induction m with
  | nil => simp [lookupKey] at h
  | cons hd tl ih =>
    rw [List.cons_append]
    simp only [lookupKey] at h ⊢
    by_cases hk : hd.1 = k
    · rwa [if_pos hk] at h ⊢
    · rw [if_neg hk] at h ⊢
      exact ih h

theorem lookupKey_append_none {β : Type} {m : List (String × β)} {k : String}
    (l : List (String × β)) (h : lookupKey m k = none) :
    lookupKey (m ++ l) k = lookupKey l k := by
  induction m with
  | nil => simp
  | cons hd tl ih =>
    rw [List.cons_append]
    simp only [lookupKey] at h ⊢
    by_cases hk : hd.1 = k
    · rw [if_pos hk] at h; exact absurd h (by simp)
    · rw [if_neg hk] at h ⊢
      exact ih h

theorem dictSet_fresh {β : Type} {m : List (String × β)} {k : String} (v : β)
    (h : containsKey m k = false) : dictSet m k v = m ++ [(k, v)] := by
  unfold dictSet
  rw [h]
  simp

/-- The in-place overwrite of `dictSet` when the key is already bound. -/
theorem dictSet_contains {β : Type} {m : List (String × β)} {k : String}
    (v : β) (h : containsKey m k = true) :
    dictSet m k v = m.map (fun p => if p.1 = k then (k, v) else p) := by
  unfold dictSet
  rw [h]
  simp

theorem lookupKey_map_overwrite_self {β : Type} (m : List (String × β))
    (k : String) (v : β) (h : containsKey m k = true) :
    lookupKey (m.map (fun p => if p.1 = k then (k, v) else p)) k = some v := by
  induction m with
  | nil => simp [containsKey, lookupKey] at h
  | cons hd tl ih =>
    rw [List.map_cons]
    by_cases hk : hd.1 = k
    · rw [if_pos hk]
      simp [lookupKey]
    · rw [if_neg hk]
      simp only [lookupKey, if_neg hk]
      apply ih
      simpa [containsKey, lookupKey, if_neg hk] using h

theorem lookupKey_map_overwrite_other {β : Type} (m : List (String × β))
    {k k' : String} (v : β) (h : k' ≠ k) :
    lookupKey (m.map (fun p => if p.1 = k then (k, v) else p)) k' =
      lookupKey m k' := by
  induction m with
  | nil => simp
  | cons hd tl ih =>
    rw [List.map_cons]
    by_cases hk : hd.1 = k
    · rw [if_pos hk]
      have h1 : ¬ ((k, v).1 = k') := fun hh => h hh.symm
      have h2 : ¬ (hd.1 = k') := by rw [hk]; exact fun hh => h hh.symm
      simp only [lookupKey, if_neg h1, if_neg h2]
      exact ih
    · rw [if_neg hk]
      simp only [lookupKey]
      by_cases hk' : hd.1 = k'
      · rw [if_pos hk', if_pos hk']
      · rw [if_neg hk', if_neg hk']
        exact ih

theorem lookupKey_dictSet_self {β : Type} (m : List (String × β)) (k : String)
    (v : β) : lookupKey (dictSet m k v) k = some v := by
  cases h : containsKey m k with
  | true =>
    rw [dictSet_contains v h]
    exact lookupKey_map_overwrite_self m k v h
  | false =>
    rw [dictSet_fresh v h]
    cases hm : lookupKey m k with
    | some v' => simp [containsKey, hm] at h
    | none =>
      rw [lookupKey_append_none _ hm]
      simp [lookupKey]

theorem lookupKey_dictSet_other {β : Type} (m : List (String × β))
    {k k' : String} (v : β) (h : k' ≠ k) :
    lookupKey (dictSet m k v) k' = lookupKey m k' := by
  cases hc : containsKey m k with
  | true =>
    rw [dictSet_contains v hc]
    exact lookupKey_map_overwrite_other m v h
  | false =>
    rw [dictSet_fresh v hc]
    cases hm : lookupKey m k' with
    | some v' => exact lookupKey_append_some hm
    | none =>
      rw [lookupKey_append_none _ hm]
      have : ¬ (k = k') := fun hh => h hh.symm
      simp [lookupKey, this]

theorem dictSet_keys_of_contains {β : Type} {m : List (String × β)}
    {k : String} (v : β) (h : containsKey m k = true) :
    (dictSet m k v).map Prod.fst = m.map Prod.fst := by
  rw [dictSet_contains v h, List.map_map]
  apply List.map_congr_left
  intro p _
  by_cases hk : p.1 = k
  · simp [hk]
  · simp [hk]

theorem containsKey_false_iff {β : Type} (m : List (String × β)) (k : String) :
    containsKey m k = false ↔ k ∉ m.map Prod.fst := by
  induction m with
  | nil => simp [containsKey, lookupKey]
  | cons hd tl ih =>
    rw [List.map_cons, List.mem_cons]
    by_cases hk : hd.1 = k
    · simp [containsKey, lookupKey, hk]
    · have hstep : containsKey (hd :: tl) k = containsKey tl k := by
        simp [containsKey, lookupKey, if_neg hk]
      rw [hstep, ih]
      constructor
      · intro hnot hor
        cases hor with
        | inl hh => exact hk hh.symm
        | inr hh => exact hnot hh
      · intro hnot hmem
        exact hnot (Or.inr hmem)

theorem lookupKey_dictDel {β : Type} (m : List (String × β)) (k k' : String) :
    lookupKey (dictDel m k) k' =
      if k' = k then none else lookupKey m k' := by
  induction m with
  | nil => simp [dictDel, lookupKey]
  | cons hd tl ih =>
    simp only [dictDel, List.filter_cons] at ih ⊢
    by_cases hk : hd.1 = k
    · rw [if_neg (by simp [hk])]
      rw [ih]
      by_cases hkk : k' = k
      · rw [if_pos hkk, if_pos hkk]
      · have h2 : ¬ (hd.1 = k') := by rw [hk]; exact fun hh => hkk hh.symm
        rw [if_neg hkk, if_neg hkk]
        simp [lookupKey, if_neg h2]
    · rw [if_pos (by simp [hk])]
      simp only [lookupKey]
      by_cases hk' : hd.1 = k'
      · have hkk : ¬ (k' = k) := fun hh => hk (hk'.trans hh)
        rw [if_pos hk', if_neg hkk, if_pos hk']
      · rw [if_neg hk', ih]
        by_cases hkk : k' = k
        · rw [if_pos hkk, if_pos hkk]
        · rw [if_neg hkk, if_neg hkk, if_neg hk']

theorem find?_reverse_append {β : Type} (l : List β) (r : β) (p : β → Bool)
    (h : p r = true) : ((l ++ [r]).reverse).find? p = some r := by
  rw [List.reverse_append]
  simp [List.find?, h]

/-! ### Strict-future lemmas for the next-fire model -/

/-- Every supported unit lasts at least one second. -/
theorem unitSecs_pos (u : TUnit) : 1 ≤ unitSecs u := by
  cases u <;> simp [unitSecs]

theorem nextFire_every_gt (n : Int) (u : TUnit) (ref : Int) (h : 1 ≤ n) :
    ref < nextFire (.every n u) ref := by
  have hu : (1 : Int) ≤ (unitSecs u : Int) := by
    exact_mod_cast unitSecs_pos u
  have : (1 : Int) ≤ n * (unitSecs u : Int) := by nlinarith
  simp only [nextFire]
  omega

theorem nextFire_daily_gt (h m : Nat) (ref : Int) :
    ref < nextFire (.daily h m) ref := by
  simp only [nextFire]
  have hdecomp : 86400 * (ref.ediv 86400) + ref.emod 86400 = ref :=
    Int.ediv_add_emod ref 86400
  have hlt : ref.emod 86400 < 86400 := Int.emod_lt_of_pos ref (by norm_num)
  have hnn : (0 : Int) ≤ ((h * 3600 + m * 60 : Nat) : Int) := by positivity
  by_cases hc : ref < (ref.ediv 86400) * 86400 + ((h * 3600 + m * 60 : Nat) : Int)
  · rwa [if_pos hc]
  · rw [if_neg hc]
    push_neg at hc
    omega

theorem nextFire_weekly_gt (d h m : Nat) (ref : Int) :
    ref < nextFire (.weekly d h m) ref := by
  simp only [nextFire]
  have hdecomp : 86400 * (ref.ediv 86400) + ref.emod 86400 = ref :=
    Int.ediv_add_emod ref 86400
  have hlt : ref.emod 86400 < 86400 := Int.emod_lt_of_pos ref (by norm_num)
  have hnn : (0 : Int) ≤ ((h * 3600 + m * 60 : Nat) : Int) := by positivity
  have hahead : (0 : Int) ≤ ((d : Int) - (ref.ediv 86400).emod 7).emod 7 :=
    Int.emod_nonneg _ (by norm_num)
  set ahead := ((d : Int) - (ref.ediv 86400).emod 7).emod 7 with hA
  have hmul : (0 : Int) ≤ ahead * 86400 := by positivity
  by_cases hc : ref < (ref.ediv 86400) * 86400 + ahead * 86400
      + ((h * 3600 + m * 60 : Nat) : Int)
  · rwa [if_pos hc]
  · rw [if_neg hc]
    push_neg at hc
    omega

/-! ### Claim C1: result-log retention -/

/-- Fixture for C1: an arbitrary stored job. -/
def c1Job : JobDefinition Unit :=
  { name := "j", function := .path "m.f", schedule_at := "every 1 hour",
    args := [], kwargs := [], enabled := true, tags := [], description := "" }

/-- Fixture for C1: one already-retained result record. -/
def c1Res : JobResult Unit :=
  { job_name := "j", start_time := 0 }

/-- Fixture for C1: a scheduler whose result log already holds exactly the
default capacity of 100 records. -/
def c1State : Scheduler Unit :=
  { jobs := [("j", c1Job)], job_results := List.replicate 100 c1Res }

/-- C1 counterexample: with the retained history already at the default cap
of 100, one more append performed via job execution (`_run_job` reached
through `run_job_now`) leaves 101 retained records — `_run_job` appends
without evicting, so the history exceeds the configured maximum. -/
theorem c1_counterexample :
    (run_job_now 0 0 (Except.ok ()) c1State "j").1.job_results.length = 101 ∧
    ¬ ((run_job_now 0 0 (Except.ok ()) c1State "j").1.job_results.length
        ≤ 100) := by
  have hlen :
      (run_job_now 0 0 (Except.ok ()) c1State "j").1.job_results.length
        = 101 := by
    simp [run_job_now, runJobState, runJob, c1State, lookupKey,
      JobResult.complete]
  exact ⟨hlen, by rw [hlen]; omega⟩

/-- C1 (amended): the retention cap is enforced only when the Result Log is
loaded from disk: for a positive configured cap, `_load_results` retains at
most `max_results` records and, when more were loaded, keeps exactly the
most recent `max_results` by insertion order (the oldest are dropped from
the front, all newer records intact); appends performed by `_run_job` do
not trim. -/
theorem c1_amended {α : Type} (max_results : Nat) (l : List (JobResult α))
    (hpos : 1 ≤ max_results) :
    (trimResults max_results l).length ≤ max_results ∧
    (max_results < l.length →
      trimResults max_results l = l.drop (l.length - max_results)) := by
  unfold trimResults pySliceLast
  by_cases hl : l.length > max_results
  · rw [if_pos hl, if_neg (by omega)]
    constructor
    · rw [List.length_drop]
      omega
    · intro _
      rfl
  · rw [if_neg hl]
    constructor
    · omega
    · intro hc
      exact absurd hc hl

/-- C1 witness: the amended retention statement evaluated at cap 1 on a
two-record log. -/
theorem c1_amended_witness :
    (1 ≤ 1) ∧
    ((trimResults 1 [c1Res, c1Res]).length ≤ 1 ∧
      (1 < ([c1Res, c1Res] : List (JobResult Unit)).length →
        trimResults 1 [c1Res, c1Res] =
          [c1Res, c1Res].drop (([c1Res, c1Res] : List (JobResult Unit)).length - 1))) :=
  ⟨le_refl 1, c1_amended 1 [c1Res, c1Res] (le_refl 1)⟩

/-! ### Claim C2: failed execution accounting -/

/-- C2: for a stored job whose action raises (resolution failure or any
exception from the call, both landing in `_run_job`'s `except` block),
`run_job_now` appends exactly one completed `JobResult` with a non-null
error, bumps the job's `run_count` by exactly one, sets `last_status` to
`"failed"` and `last_run` to the start timestamp, returns the new result,
and — being a total function of the outcome — propagates no exception. -/
theorem c2_run_job_now_failure {α : Type} (s : Scheduler α) (name : String)
    (j : JobDefinition α) (t t' : Int) (e : String)
    (hj : lookupKey s.jobs name = some j) (hn : j.name = name) :
    ∃ r : JobResult α,
      (run_job_now t t' (.error e) s name).1.job_results
          = s.job_results ++ [r] ∧
      r.error = some e ∧ r.error ≠ none ∧ r.end_time = some t' ∧
      r.success = some false ∧
      (run_job_now t t' (.error e) s name).2 = some r ∧
      get_job (run_job_now t t' (.error e) s name).1 name =
        some { j with last_run := some t, last_status := some "failed",
                      run_count := j.run_count + 1 } := by
  refine ⟨{ job_name := j.name, start_time := t, end_time := some t',
            success := some false, result := none, error := some e }, ?_⟩
  have hrun : run_job_now t t' (Except.error e) s name =
      (runJobState t t' (Except.error e) s name j,
        (runJobState t t' (Except.error e) s name j).job_results.reverse.find?
          (fun r => r.job_name = name)) := by
    simp [run_job_now, hj]
  rw [hrun]
  refine ⟨?_, rfl, by simp, rfl, rfl, ?_, ?_⟩
  · simp [runJobState, runJob, JobResult.complete]
  · simp only [runJobState, runJob, JobResult.complete]
    exact find?_reverse_append _ _ _ (by simp [hn])
  · simp only [runJobState, runJob, JobResult.complete, get_job]
    exact lookupKey_dictSet_self s.jobs name _

/-- C2 witness: the failed-run bookkeeping evaluated on a concrete
single-job scheduler. -/
theorem c2_witness :
    (lookupKey ({ jobs := [("j", c1Job)], job_results := [] } :
        Scheduler Unit).jobs "j" = some c1Job ∧ c1Job.name = "j") ∧
    ∃ r : JobResult Unit,
      (run_job_now 3 4 (.error "boom")
          ({ jobs := [("j", c1Job)], job_results := [] } : Scheduler Unit)
          "j").1.job_results = [] ++ [r] ∧
      r.error = some "boom" ∧ r.error ≠ none ∧ r.end_time = some 4 ∧
      r.success = some false ∧
      (run_job_now 3 4 (.error "boom")
          ({ jobs := [("j", c1Job)], job_results := [] } : Scheduler Unit)
          "j").2 = some r ∧
      get_job (run_job_now 3 4 (.error "boom")
          ({ jobs := [("j", c1Job)], job_results := [] } : Scheduler Unit)
          "j").1 "j" =
        some { c1Job with last_run := some 3, last_status := some "failed",
                          run_count := c1Job.run_count + 1 } :=
  ⟨⟨by simp [lookupKey], rfl⟩,
    c2_run_job_now_failure _ "j" c1Job 3 4 "boom" (by simp [lookupKey]) rfl⟩

/-! ### Claim C3: rate-gate check-then-increment -/

/-- Fixture for C3: daily ceiling of 2 for every category. -/
def followLimits : String → Nat := fun _ => 2

/-- Fixture for C3: all counters initially zero. -/
def followCounts0 : String → Nat := fun _ => 0

/-- Fixture for C3: first `admit('follow')`. -/
def followStep1 : Bool × (String → Nat) :=
  checkRateLimit followLimits followCounts0 "follow"

/-- Fixture for C3: second `admit('follow')`. -/
def followStep2 : Bool × (String → Nat) :=
  checkRateLimit followLimits followStep1.2 "follow"

/-- Fixture for C3: third `admit('follow')`. -/
def followStep3 : Bool × (String → Nat) :=
  checkRateLimit followLimits followStep2.2 "follow"

/-- C3: `_check_rate_limit` checks then increments — at or above the ceiling
it returns `false` with the counters untouched; below the ceiling it
returns `true`, bumps exactly the queried category by one and leaves every
other counter unchanged. With ceiling 2 and a zero counter, three
successive `admit('follow')` calls return `true, true, false`. -/
theorem c3_rate_gate (limits counts : String → Nat) (a : String) :
    (limits a ≤ counts a → checkRateLimit limits counts a = (false, counts)) ∧
    (counts a < limits a →
      (checkRateLimit limits counts a).1 = true ∧
      (checkRateLimit limits counts a).2 a = counts a + 1 ∧
      ∀ b, b ≠ a → (checkRateLimit limits counts a).2 b = counts b) ∧
    (followStep1.1 = true ∧ followStep2.1 = true ∧ followStep3.1 = false) := by
  refine ⟨?_, ?_, ?_, ?_, ?_⟩
  · intro h
    simp [checkRateLimit, h]
  · intro h
    constructor
    · simp [checkRateLimit, Nat.not_le.mpr h]
    · constructor
      · simp [checkRateLimit, Nat.not_le.mpr h]
      · intro b hb
        simp [checkRateLimit, Nat.not_le.mpr h, hb]
  · rfl
  · rfl
  · rfl

/-- C3 witness: the below-ceiling branch evaluated at the `follow` category
with ceiling 2 and counter 0, plus the three-call scenario. -/
theorem c3_rate_gate_witness :
    (followCounts0 "follow" < followLimits "follow") ∧
    ((checkRateLimit followLimits followCounts0 "follow").1 = true ∧
      (checkRateLimit followLimits followCounts0 "follow").2 "follow"
        = followCounts0 "follow" + 1 ∧
      ∀ b, b ≠ "follow" →
        (checkRateLimit followLimits followCounts0 "follow").2 b
          = followCounts0 b) ∧
    (followStep1.1 = true ∧ followStep2.1 = true ∧ followStep3.1 = false) :=
  ⟨by decide,
    ((c3_rate_gate followLimits followCounts0 "follow").2.1 (by decide)),
    (c3_rate_gate followLimits followCounts0 "follow").2.2⟩

/-! ### Claim C4: grammar-valid cadences and next-fire -/

/-- C4 (code bug): the grammar-valid cadence `"weekly on saturday at 08:00"`
is rejected by `_schedule_all_jobs` — the code splits the day-time part on
the SUBSTRING `"at"`, which also matches inside `"saturday"`, so the
`len(day_parts) == 2` check fails and the job is skipped; the source's own
`elif day == 'saturday'` branch is thereby unreachable. For the forms the
parser does accept, the scenario evaluations of the claim hold (shown here
on the spec-modelled next-fire arithmetic of the external `schedule`
library). -/
theorem c4_saturday_code_bug :
    parseSchedule "weekly on saturday at 08:00" = .reject ∧
    specGrammarValid "weekly on saturday at 08:00" = true ∧
    parseSchedule "weekly on friday at 08:00" = .ok (.weekly 4 8 0) ∧
    parseSchedule "every 2 hours" = .ok (.every 2 .hour) ∧
    nextFire (.every 2 .hour) 0 = 7200 ∧
    parseSchedule "daily at 09:30" = .ok (.daily 9 30) ∧
    nextFire (.daily 9 30) 36000 = 120600 ∧
    parseSchedule "weekly on monday at 08:00" = .ok (.weekly 0 8 0) ∧
    nextFire (.weekly 0 8 0) 86400 = 633600 := by
  refine ⟨?_, ?_, ?_, ?_, ?_, ?_, ?_, ?_, ?_⟩ <;> rfl

/-! ### Claim C5: malformed cadences are skipped -/

/-- Fixture for C5: an enabled job whose cadence is outside the spec's
grammar (`"hourss"` is not a unit name) yet accepted by the code, since
`rstrip('s')` strips every trailing `s`. -/
def c5Job : JobDefinition Unit :=
  { name := "x", function := .path "m.f", schedule_at := "every 1 hourss",
    args := [], kwargs := [], enabled := true, tags := [], description := "" }

/-- C5 counterexample: a cadence string outside the grammar is NOT skipped:
the job gets a recurrence registered and a non-null `next_run`. -/
theorem c5_counterexample :
    specGrammarValid "every 1 hourss" = false ∧
    schedJobs 0 none [("x", c5Job)] =
      ([("x", { c5Job with next_run := some 3600 })],
        [("x", .every 1 .hour)]) := by
  constructor <;> rfl

/-- C5 (amended): every enabled job whose cadence the CODE's parser rejects
(unsupported form, unparseable integer, unknown unit after stripping all
trailing `s`, unknown day name, malformed weekly split, bad time string) is
skipped by the scheduling pass: the job's fields — `next_run` included —
are left untouched, no recurrence is registered for it, and the remaining
jobs are processed exactly as they would be without it. (The set of
accepted strings differs from the spec grammar in both directions, as the
counterexample shows.) -/
theorem c5_amended {α : Type} (now : Int) (prev : Option Cadence)
    (k : String) (j : JobDefinition α)
    (rest : List (String × JobDefinition α)) (he : j.enabled = true)
    (hr : parseSchedule j.schedule_at = .reject) :
    schedJobs now prev ((k, j) :: rest) =
      ((k, j) :: (schedJobs now prev rest).1, (schedJobs now prev rest).2) := by
  simp [schedJobs, he, hr]

/-- Fixture for C5's witness: an enabled job with an unsupported cadence
form, rejected by the code. -/
def c5BadJob : JobDefinition Unit :=
  { name := "y", function := .path "m.f", schedule_at := "whenever",
    args := [], kwargs := [], enabled := true, tags := [], description := "" }

/-- C5 witness: the amended skip behaviour evaluated on a concrete
malformed job followed by a well-formed one. -/
theorem c5_amended_witness :
    (c5BadJob.enabled = true ∧ parseSchedule c5BadJob.schedule_at = .reject) ∧
    schedJobs 0 none [("y", c5BadJob), ("x", c5Job)] =
      (("y", c5BadJob) :: (schedJobs 0 none [("x", c5Job)]).1,
        (schedJobs 0 none [("x", c5Job)]).2) :=
  ⟨⟨rfl, rfl⟩, c5_amended 0 none "y" c5BadJob [("x", c5Job)] rfl rfl⟩

/-! ### Claim C6: add_job / get_job -/

/-- C6: adding under a fresh name stores and returns a job whose every
field is exactly what was passed (optional parameters defaulted as in the
source), and `get_job` then finds that job; adding under an existing name
raises `DuplicateJob` (`ValueError` in the source) and leaves the whole job
map — the existing job included — untouched. -/
theorem c6_add_job {α : Type} (s : Scheduler α) (name : String)
    (function : FuncRef) (schedule_at : String) (args : Option (List α))
    (kwargs : Option (List (String × α))) (enabled : Bool)
    (tags : Option (List String)) (description : Option String) :
    (containsKey s.jobs name = false →
      add_job s name function schedule_at args kwargs enabled tags
          description =
        ({ s with jobs := s.jobs ++
            [(name,
              { name := name, function := function,
                schedule_at := schedule_at, args := args.getD [],
                kwargs := kwargs.getD [], enabled := enabled,
                tags := tags.getD [], description := description.getD "",
                last_run := none, last_status := none, next_run := none,
                run_count := 0 })] },
          .ok
            { name := name, function := function,
              schedule_at := schedule_at, args := args.getD [],
              kwargs := kwargs.getD [], enabled := enabled,
              tags := tags.getD [], description := description.getD "",
              last_run := none, last_status := none, next_run := none,
              run_count := 0 }) ∧
      get_job (add_job s name function schedule_at args kwargs enabled tags
          description).1 name =
        some
          { name := name, function := function, schedule_at := schedule_at,
            args := args.getD [], kwargs := kwargs.getD [],
            enabled := enabled, tags := tags.getD [],
            description := description.getD "", last_run := none,
            last_status := none, next_run := none, run_count := 0 }) ∧
    (containsKey s.jobs name = true →
      add_job s name function schedule_at args kwargs enabled tags
          description = (s, .error "duplicate job name")) := by
  constructor
  · intro hfresh
    have hnone : lookupKey s.jobs name = none := by
      cases hm : lookupKey s.jobs name with
      | none => rfl
      | some v => simp [containsKey, hm] at hfresh
    constructor
    · simp [add_job, hfresh]
    · simp only [add_job, hfresh, Bool.false_eq_true, if_false, get_job]
      rw [lookupKey_append_none _ hnone]
      simp [lookupKey]
  · intro hdup
    simp [add_job, hdup]

/-- Fixture for C6's witness: a scheduler with an empty job map. -/
def c6State : Scheduler Unit := { jobs := [], job_results := [] }

/-- C6 witness: adding a fresh job to the empty map, then looking it up. -/
theorem c6_add_job_witness :
    containsKey c6State.jobs "n" = false ∧
    get_job (add_job c6State "n" (.path "m.f") "daily at 09:30" none none
        true none none).1 "n" =
      some
        { name := "n", function := .path "m.f",
          schedule_at := "daily at 09:30", args := [], kwargs := [],
          enabled := true, tags := [], description := "",
          last_run := none, last_status := none, next_run := none,
          run_count := 0 } :=
  ⟨rfl, ((c6_add_job c6State "n" (.path "m.f") "daily at 09:30" none none
      true none none).1 rfl).2⟩

/-! ### Claim C9: lifecycle -/

/-- C9: calling `start()` while already running is a complete no-op (the
state — scheduled recurrences and worker-thread count included — is
unchanged, and no exception is raised since `start` is total); after
`start()` the engine is running; `stop()` while stopped is likewise a
no-op; after `stop()` the engine is stopped. Hence the lifecycle only moves
stopped → running via `start()` and running → stopped via `stop()`. -/
theorem c9_lifecycle {α : Type} (s : Scheduler α) (now : Int) :
    (s.running = true → Scheduler.start now s = s) ∧
    (Scheduler.start now s).running = true ∧
    (s.running = false → Scheduler.stop s = s) ∧
    (Scheduler.stop s).running = false := by
  refine ⟨?_, ?_, ?_, ?_⟩
  · intro h
    simp [Scheduler.start, h]
  · unfold Scheduler.start
    cases h : s.running with
    | true => simp [h]
    | false => simp [h]
  · intro h
    simp [Scheduler.stop, h]
  · unfold Scheduler.stop
    cases h : s.running with
    | true => simp [h]
    | false => simp [h]

/-- Fixture for C9's witness: a running engine. -/
def c9Running : Scheduler Unit :=
  { jobs := [("j", c1Job)], job_results := [], running := true,
    threads := 1, registered := [("j", .every 1 .hour)] }

/-- C9 witness: a second `start()` on a concrete running engine changes
nothing. -/
theorem c9_lifecycle_witness :
    c9Running.running = true ∧ Scheduler.start 0 c9Running = c9Running :=
  ⟨rfl, (c9_lifecycle c9Running 0).1 rfl⟩

/-! ### Claim C10: update_job frame property -/

/-- C10: for an existing job, `update_job` sets exactly the parameters
passed non-`None` (each field of the stored job equals the passed value or,
when omitted, its prior value), never touches the job's `name`, `last_run`,
`last_status`, `next_run` or `run_count`, returns the updated job, and
modifies no other entry of the job map (same keys in the same order, every
other pair kept verbatim); the result log and the rest of the state are
untouched. -/
theorem c10_update_job_frame {α : Type} (s : Scheduler α) (name : String)
    (j : JobDefinition α) (function : Option FuncRef)
    (schedule_at : Option String) (args : Option (List α))
    (kwargs : Option (List (String × α))) (enabled : Option Bool)
    (tags : Option (List String)) (description : Option String)
    (hj : lookupKey s.jobs name = some j) :
    (update_job s name function schedule_at args kwargs enabled tags
        description).2 =
      .ok
        { name := j.name, function := function.getD j.function,
          schedule_at := schedule_at.getD j.schedule_at,
          args := args.getD j.args, kwargs := kwargs.getD j.kwargs,
          enabled := enabled.getD j.enabled, tags := tags.getD j.tags,
          description := description.getD j.description,
          last_run := j.last_run, last_status := j.last_status,
          next_run := j.next_run, run_count := j.run_count } ∧
    get_job (update_job s name function schedule_at args kwargs enabled tags
        description).1 name =
      some
        { name := j.name, function := function.getD j.function,
          schedule_at := schedule_at.getD j.schedule_at,
          args := args.getD j.args, kwargs := kwargs.getD j.kwargs,
          enabled := enabled.getD j.enabled, tags := tags.getD j.tags,
          description := description.getD j.description,
          last_run := j.last_run, last_status := j.last_status,
          next_run := j.next_run, run_count := j.run_count } ∧
    (∀ k, k ≠ name →
      lookupKey (update_job s name function schedule_at args kwargs enabled
          tags description).1.jobs k = lookupKey s.jobs k) ∧
    (update_job s name function schedule_at args kwargs enabled tags
        description).1.jobs.map Prod.fst = s.jobs.map Prod.fst ∧
    (update_job s name function schedule_at args kwargs enabled tags
        description).1.job_results = s.job_results ∧
    (update_job s name function schedule_at args kwargs enabled tags
        description).1.running = s.running := by
  have hc : containsKey s.jobs name = true := by simp [containsKey, hj]
  have hu : update_job s name function schedule_at args kwargs enabled tags
      description =
      ({ s with jobs := dictSet s.jobs name (applyUpdate j function
          schedule_at args kwargs enabled tags description) },
        .ok (applyUpdate j function schedule_at args kwargs enabled tags
          description)) := by
    simp [update_job, hj]
  rw [hu]
  refine ⟨rfl, ?_, ?_, ?_, rfl, rfl⟩
  · simp only [get_job]
    exact lookupKey_dictSet_self s.jobs name _
  · intro k hk
    exact lookupKey_dictSet_other s.jobs _ hk
  · exact dictSet_keys_of_contains _ hc

/-- C10 witness: updating only the `enabled` flag of a concrete stored job
leaves every other field and the rest of the map intact. -/
theorem c10_update_job_frame_witness :
    lookupKey c9Running.jobs "j" = some c1Job ∧
    get_job (update_job c9Running "j" none none none none (some false) none
        none).1 "j" =
      some
        { name := c1Job.name, function := c1Job.function,
          schedule_at := c1Job.schedule_at, args := c1Job.args,
          kwargs := c1Job.kwargs, enabled := (some false).getD c1Job.enabled,
          tags := c1Job.tags, description := c1Job.description,
          last_run := c1Job.last_run, last_status := c1Job.last_status,
          next_run := c1Job.next_run, run_count := c1Job.run_count } :=
  ⟨rfl, (c10_update_job_frame c9Running "j" c1Job none none none none
      (some false) none none rfl).2.1⟩

/-! ### Claim C7: persistence round trip -/

/-- One record's round trip through the persistence format. -/
def roundJob {α : Type} (j : JobDefinition α) : JobDefinition α :=
  JobDefinition.from_dict j.to_dict

theorem roundJob_name {α : Type} (j : JobDefinition α) :
    (roundJob j).name = j.name := rfl

theorem roundJob_schedule_at {α : Type} (j : JobDefinition α) :
    (roundJob j).schedule_at = j.schedule_at := rfl

theorem roundJob_enabled {α : Type} (j : JobDefinition α) :
    (roundJob j).enabled = j.enabled := rfl

theorem containsKey_append_single_ne {β : Type} {m : List (String × β)}
    {k n : String} (v : β) (hm : containsKey m k = false) (hne : k ≠ n) :
    containsKey (m ++ [(n, v)]) k = false := by
  have hnone : lookupKey m k = none := by
    cases hl : lookupKey m k with
    | none => rfl
    | some w => simp [containsKey, hl] at hm
  have : lookupKey (m ++ [(n, v)]) k = none := by
    rw [lookupKey_append_none _ hnone]
    have : ¬ (n = k) := fun hh => hne hh.symm
    simp [lookupKey, this]
  simp [containsKey, this]

/-- Replaying `self.jobs[job.name] = job` over a record list whose names are
fresh for the accumulator and mutually distinct appends them in order. -/
theorem loadJobs_foldl_aux {α : Type} (ds : List (JobDict α)) :
    ∀ acc : List (String × JobDefinition α),
      (∀ d ∈ ds, containsKey acc (JobDefinition.from_dict d).name = false) →
      (ds.map (fun d => (JobDefinition.from_dict d).name)).Nodup →
      ds.foldl (fun m d => dictSet m (JobDefinition.from_dict d).name
          (JobDefinition.from_dict d)) acc =
        acc ++ ds.map (fun d =>
          ((JobDefinition.from_dict d).name, JobDefinition.from_dict d)) := by
  induction ds with
  | nil => intro acc _ _; simp
  | cons d rest ih =>
    intro acc hfresh hnd
    rw [List.foldl_cons,
      dictSet_fresh _ (hfresh d (List.mem_cons_self d rest))]
    rw [List.map_cons] at hnd
    have hnd' := hnd.of_cons
    have hhead : (JobDefinition.from_dict d).name ∉
        rest.map (fun d => (JobDefinition.from_dict d).name) :=
      (List.nodup_cons.mp hnd).1
    rw [ih (acc ++ [((JobDefinition.from_dict d).name,
        JobDefinition.from_dict d)]) ?_ hnd']
    · simp
    · intro d' hd'
      refine containsKey_append_single_ne _
        (hfresh d' (List.mem_cons_of_mem d hd')) ?_
      intro heq
      exact hhead (heq ▸ List.mem_map_of_mem
        (fun d => (JobDefinition.from_dict d).name) hd')

theorem forall₂_map_self {β : Type} (l : List β) (f : β → β)
    (R : β → β → Prop) (h : ∀ p ∈ l, R p (f p)) :
    List.Forall₂ R l (l.map f) := by
  induction l with
  | nil => simp
  | cons hd tl ih =>
    rw [List.map_cons]
    exact List.Forall₂.cons (h hd (List.mem_cons_self hd tl))
      (ih fun p hp => h p (List.mem_cons_of_mem hd hp))

/-- C7: saving the job map (`_save_jobs` writes `to_dict` of each job) and
loading it back (`_load_jobs` re-keys each `from_dict` record by its name)
reproduces the job names in order, and entrywise an equal name, cadence
string and enabled flag — provided the map is keyed consistently (each key
equals its job's name, which every store mutation maintains) and names are
unique. -/
theorem c7_roundtrip {α : Type} (m : List (String × JobDefinition α))
    (hnd : (m.map (fun p => p.2.name)).Nodup)
    (hkeys : ∀ p ∈ m, p.1 = p.2.name) :
    (loadJobs (saveJobs m)).map Prod.fst = m.map Prod.fst ∧
    List.Forall₂ (fun (p q : String × JobDefinition α) =>
        q.1 = p.1 ∧ q.2.name = p.2.name ∧
        q.2.schedule_at = p.2.schedule_at ∧ q.2.enabled = p.2.enabled)
      m (loadJobs (saveJobs m)) := by
  have hload : loadJobs (saveJobs m) =
      m.map (fun p => (p.2.name, roundJob p.2)) := by
    unfold loadJobs saveJobs
    have h2 := loadJobs_foldl_aux (α := α) (m.map (fun p => p.2.to_dict)) []
      (fun d _ => rfl) (by rw [List.map_map]; exact hnd)
    rw [h2, List.nil_append, List.map_map]
    rfl
  rw [hload]
  constructor
  · rw [List.map_map]
    refine (List.map_congr_left ?_).symm
    intro p hp
    exact hkeys p hp
  · refine forall₂_map_self m _ _ ?_
    intro p hp
    exact ⟨(hkeys p hp).symm, rfl, rfl, rfl⟩

/-- Fixture for C7's witness: a two-job map, consistently keyed. -/
def c7Map : List (String × JobDefinition Unit) :=
  [("j", c1Job), ("x", c5Job)]

/-- C7 witness: the round trip evaluated on a concrete two-job map. -/
theorem c7_roundtrip_witness :
    ((c7Map.map (fun p => p.2.name)).Nodup ∧
      ∀ p ∈ c7Map, p.1 = p.2.name) ∧
    (loadJobs (saveJobs c7Map)).map Prod.fst = c7Map.map Prod.fst :=
  ⟨⟨by decide, by decide⟩,
    (c7_roundtrip c7Map (by decide) (by decide)).1⟩

/-! ### Claim C8: store invariants -/

/-- A recurrence whose next fire is strictly after every reference
instant. -/
def goodCad (c : Cadence) : Prop := ∀ ref : Int, ref < nextFire c ref

theorem goodCad_of_pos {c : Cadence}
    (h : ∀ n u, c = .every n u → 1 ≤ n) : goodCad c := by
  intro ref
  cases c with
  | every n u => exact nextFire_every_gt n u ref (h n u rfl)
  | daily hh mm => exact nextFire_daily_gt hh mm ref
  | weekly d hh mm => exact nextFire_weekly_gt d hh mm ref

/-- The scheduling pass preserves the job keys in order. -/
theorem schedJobs_keys {α : Type} (now : Int) :
    ∀ (l : List (String × JobDefinition α)) (prev : Option Cadence),
      ((schedJobs now prev l).1).map Prod.fst = l.map Prod.fst := by
  intro l
  induction l with
  | nil => intro prev; simp [schedJobs]
  | cons p rest ih =>
    intro prev
    obtain ⟨k, j⟩ := p
    cases he : j.enabled with
    | false => simp [schedJobs, he, ih prev]
    | true =>
      simp only [schedJobs, he, if_true]
      cases hp : parseSchedule j.schedule_at with
      | ok c => simp [ih (some c)]
      | reject => simp [ih prev]
      | fallthrough =>
        cases prev with
        | none => simp [ih none]
        | some c => simp [ih (some c)]

/-- Entrywise effect of the scheduling pass: keys and `run_count` are
untouched, and — when the incoming `scheduled_job` binding and every
cadence the parser accepts fire strictly in the future — each job's
`next_run` is either left unchanged or set to an instant strictly after
`now`. -/
theorem schedJobs_rel {α : Type} (now : Int) :
    ∀ (l : List (String × JobDefinition α)) (prev : Option Cadence),
      (∀ c, prev = some c → goodCad c) →
      (∀ p ∈ l, ∀ c, parseSchedule p.2.schedule_at = .ok c → goodCad c) →
      List.Forall₂ (fun p q => q.1 = p.1 ∧ q.2.run_count = p.2.run_count ∧
          (q.2.next_run = p.2.next_run ∨
            ∃ t, q.2.next_run = some t ∧ now < t))
        l (schedJobs now prev l).1 := by
  intro l
  induction l with
  | nil => intro prev _ _; simp [schedJobs]
  | cons p rest ih =>
    intro prev hprev hgood
    obtain ⟨k, j⟩ := p
    have hgood_rest : ∀ p ∈ rest, ∀ c,
        parseSchedule p.2.schedule_at = .ok c → goodCad c :=
      fun p hp => hgood p (List.mem_cons_of_mem _ hp)
    cases he : j.enabled with
    | false =>
      simp only [schedJobs, he, Bool.false_eq_true, if_false]
      exact List.Forall₂.cons ⟨rfl, rfl, Or.inl rfl⟩ (ih prev hprev hgood_rest)
    | true =>
      simp only [schedJobs, he, if_true]
      cases hp : parseSchedule j.schedule_at with
      | ok c =>
        have hc : goodCad c :=
          hgood (k, j) (List.mem_cons_self _ _) c hp
        refine List.Forall₂.cons ⟨rfl, rfl, Or.inr ⟨nextFire c now, rfl, hc now⟩⟩
          (ih (some c) ?_ hgood_rest)
        intro c' hc'
        injection hc' with hcc
        exact hcc ▸ hc
      | reject =>
        exact List.Forall₂.cons ⟨rfl, rfl, Or.inl rfl⟩
          (ih prev hprev hgood_rest)
      | fallthrough =>
        cases prev with
        | none =>
          exact List.Forall₂.cons ⟨rfl, rfl, Or.inl rfl⟩
            (ih none hprev hgood_rest)
        | some c =>
          have hc : goodCad c := hprev c rfl
          refine List.Forall₂.cons
            ⟨rfl, rfl, Or.inr ⟨nextFire c now, rfl, hc now⟩⟩
            (ih (some c) ?_ hgood_rest)
          intro c' hc'
          injection hc' with hcc
          exact hcc ▸ hc

theorem add_job_keys_nodup {α : Type} (s : Scheduler α)
    (hnd : (s.jobs.map Prod.fst).Nodup) (name : String) (fn : FuncRef)
    (sch : String) (args : Option (List α))
    (kwargs : Option (List (String × α))) (en : Bool)
    (tags : Option (List String)) (desc : Option String) :
    (((add_job s name fn sch args kwargs en tags desc).1).jobs.map
      Prod.fst).Nodup := by
  unfold add_job
  cases hc : containsKey s.jobs name with
  | true => simpa [hc] using hnd
  | false =>
    simp only [hc, Bool.false_eq_true, if_false, List.map_append,
      List.map_cons, List.map_nil]
    rw [List.nodup_append]
    refine ⟨hnd, List.nodup_singleton _, ?_⟩
    intro a ha hb
    rw [List.mem_singleton] at hb
    exact ((containsKey_false_iff s.jobs name).mp hc) (hb ▸ ha)

theorem add_job_lookup_preserved {α : Type} (s : Scheduler α) (name : String)
    (fn : FuncRef) (sch : String) (args : Option (List α))
    (kwargs : Option (List (String × α))) (en : Bool)
    (tags : Option (List String)) (desc : Option String) (k : String)
    (j0 : JobDefinition α) (h0 : lookupKey s.jobs k = some j0) :
    lookupKey (add_job s name fn sch args kwargs en tags desc).1.jobs k
      = some j0 := by
  unfold add_job
  cases hc : containsKey s.jobs name with
  | true => simpa [hc] using h0
  | false =>
    simp only [hc, Bool.false_eq_true, if_false]
    exact lookupKey_append_some h0

theorem remove_job_keys_nodup {α : Type} (s : Scheduler α)
    (hnd : (s.jobs.map Prod.fst).Nodup) (name : String) :
    (((remove_job s name).1).jobs.map Prod.fst).Nodup := by
  unfold remove_job
  cases hc : containsKey s.jobs name with
  | true =>
    simp only [hc, if_true]
    exact hnd.sublist ((List.filter_sublist s.jobs).map Prod.fst)
  | false => simpa [hc] using hnd

theorem remove_job_lookup {α : Type} (s : Scheduler α) (name k : String)
    (j1 : JobDefinition α)
    (h1 : lookupKey (remove_job s name).1.jobs k = some j1) :
    lookupKey s.jobs k = some j1 := by
  unfold remove_job at h1
  cases hc : containsKey s.jobs name with
  | true =>
    rw [hc] at h1
    simp only [if_true] at h1
    rw [lookupKey_dictDel] at h1
    by_cases hk : k = name
    · rw [if_pos hk] at h1
      cases h1
    · rwa [if_neg hk] at h1
  | false =>
    rw [hc] at h1
    simpa using h1

theorem update_job_keys_nodup {α : Type} (s : Scheduler α)
    (hnd : (s.jobs.map Prod.fst).Nodup) (name : String)
    (fn : Option FuncRef) (sch : Option String) (args : Option (List α))
    (kwargs : Option (List (String × α))) (en : Option Bool)
    (tags : Option (List String)) (desc : Option String) :
    (((update_job s name fn sch args kwargs en tags desc).1).jobs.map
      Prod.fst).Nodup := by
  unfold update_job
  cases hj : lookupKey s.jobs name with
  | none => simpa using hnd
  | some j =>
    simp only []
    rw [dictSet_keys_of_contains _ (by simp [containsKey, hj])]
    exact hnd

theorem update_job_lookup {α : Type} (s : Scheduler α) (name : String)
    (fn : Option FuncRef) (sch : Option String) (args : Option (List α))
    (kwargs : Option (List (String × α))) (en : Option Bool)
    (tags : Option (List String)) (desc : Option String) (k : String)
    (j0 : JobDefinition α) (h0 : lookupKey s.jobs k = some j0) :
    ∃ j1, lookupKey
        (update_job s name fn sch args kwargs en tags desc).1.jobs k
        = some j1 ∧
      j1.run_count = j0.run_count ∧ j1.next_run = j0.next_run := by
  unfold update_job
  cases hj : lookupKey s.jobs name with
  | none => exact ⟨j0, by simpa using h0, rfl, rfl⟩
  | some j =>
    simp only []
    by_cases hk : k = name
    · subst hk
      have hjj : j = j0 := by
        rw [hj] at h0
        injection h0
      refine ⟨applyUpdate j fn sch args kwargs en tags desc,
        lookupKey_dictSet_self _ _ _, ?_, ?_⟩
      · rw [hjj]; rfl
      · rw [hjj]; rfl
    · exact ⟨j0, by rw [lookupKey_dictSet_other _ _ hk]; exact h0, rfl, rfl⟩

theorem run_job_now_keys_nodup {α : Type} (s : Scheduler α)
    (hnd : (s.jobs.map Prod.fst).Nodup) (t t' : Int)
    (o : Except String α) (name : String) :
    (((run_job_now t t' o s name).1).jobs.map Prod.fst).Nodup := by
  unfold run_job_now runJobState
  cases hj : lookupKey s.jobs name with
  | none => simpa using hnd
  | some j =>
    simp only []
    rw [dictSet_keys_of_contains _ (by simp [containsKey, hj])]
    exact hnd

theorem run_job_now_lookup {α : Type} (s : Scheduler α) (t t' : Int)
    (o : Except String α) (name k : String) (j0 : JobDefinition α)
    (h0 : lookupKey s.jobs k = some j0) :
    ∃ j1, lookupKey (run_job_now t t' o s name).1.jobs k = some j1 ∧
      j0.run_count ≤ j1.run_count ∧ j1.next_run = j0.next_run := by
  unfold run_job_now runJobState
  cases hj : lookupKey s.jobs name with
  | none => exact ⟨j0, by simpa using h0, le_refl _, rfl⟩
  | some j =>
    simp only []
    by_cases hk : k = name
    · subst hk
      have hjj : j = j0 := by
        rw [hj] at h0
        injection h0
      subst hjj
      refine ⟨(runJob t t' o j).1, lookupKey_dictSet_self _ _ _, ?_, ?_⟩
      · cases o with
        | ok v => exact Nat.le_succ _
        | error e => exact Nat.le_succ _
      · cases o with
        | ok v => rfl
        | error e => rfl
    · exact ⟨j0, by rw [lookupKey_dictSet_other _ _ hk]; exact h0,
        le_refl _, rfl⟩

/-- Fixture for C8: an enabled job with the degenerate cadence
`"every 0 seconds"`, which the code accepts (`int("0")` parses). -/
def c8Job : JobDefinition Unit :=
  { name := "z", function := .path "m.f", schedule_at := "every 0 seconds",
    args := [], kwargs := [], enabled := true, tags := [], description := "" }

/-- Fixture for C8: a scheduler holding only the degenerate job. -/
def c8State : Scheduler Unit :=
  { jobs := [("z", c8Job)], job_results := [] }

/-- C8 counterexample: scheduling the accepted cadence
`"every 0 seconds"` at instant 100 computes `next_run = 100` — equal to,
not strictly after, the instant of computation — so the claimed invariant
"`next_run_at` is always null or strictly in the future relative to the
instant at which it was last computed" is false. -/
theorem c8_counterexample :
    get_job (scheduleAllJobs 100 c8State) "z"
      = some { c8Job with next_run := some 100 } ∧
    ¬ ((100 : Int) < 100) :=
  ⟨rfl, by omega⟩

/-- C8 (amended): job names stay unique across every store operation
(`add_job`, `remove_job`, `update_job`, `run_job_now` and the scheduling
pass); no operation ever decreases a stored job's `run_count`; no operation
except the scheduling pass touches `next_run`; and the scheduling pass
leaves each job's `next_run` unchanged or sets it strictly after the
computation instant PROVIDED every `every`-cadence interval the parser
accepts is at least one — for the degenerate intervals the code also
accepts (`0` or negative), the computed instant is not strictly in the
future, as the counterexample shows. -/
theorem c8_amended {α : Type} (s : Scheduler α)
    (hnd : (s.jobs.map Prod.fst).Nodup) :
    (∀ name fn sch args kwargs en tags desc,
      (((add_job s name fn sch args kwargs en tags desc).1).jobs.map
        Prod.fst).Nodup ∧
      ∀ k j0, lookupKey s.jobs k = some j0 →
        lookupKey (add_job s name fn sch args kwargs en tags desc).1.jobs k
          = some j0) ∧
    (∀ name,
      (((remove_job s name).1).jobs.map Prod.fst).Nodup ∧
      ∀ k j1, lookupKey (remove_job s name).1.jobs k = some j1 →
        lookupKey s.jobs k = some j1) ∧
    (∀ name fn sch args kwargs en tags desc,
      (((update_job s name fn sch args kwargs en tags desc).1).jobs.map
        Prod.fst).Nodup ∧
      ∀ k j0, lookupKey s.jobs k = some j0 →
        ∃ j1, lookupKey
            (update_job s name fn sch args kwargs en tags desc).1.jobs k
            = some j1 ∧
          j1.run_count = j0.run_count ∧ j1.next_run = j0.next_run) ∧
    (∀ t t' o name,
      (((run_job_now t t' o s name).1).jobs.map Prod.fst).Nodup ∧
      ∀ k j0, lookupKey s.jobs k = some j0 →
        ∃ j1, lookupKey (run_job_now t t' o s name).1.jobs k = some j1 ∧
          j0.run_count ≤ j1.run_count ∧ j1.next_run = j0.next_run) ∧
    (∀ now : Int,
      (((scheduleAllJobs now s).jobs).map Prod.fst).Nodup ∧
      ((∀ p ∈ s.jobs, ∀ n u,
          parseSchedule p.2.schedule_at = .ok (.every n u) → 1 ≤ n) →
        List.Forall₂ (fun p q => q.1 = p.1 ∧
            q.2.run_count = p.2.run_count ∧
            (q.2.next_run = p.2.next_run ∨
              ∃ t, q.2.next_run = some t ∧ now < t))
          s.jobs (scheduleAllJobs now s).jobs)) := by
  refine ⟨?_, ?_, ?_, ?_, ?_⟩
  · intro name fn sch args kwargs en tags desc
    exact ⟨add_job_keys_nodup s hnd name fn sch args kwargs en tags desc,
      fun k j0 h0 =>
        add_job_lookup_preserved s name fn sch args kwargs en tags desc k
          j0 h0⟩
  · intro name
    exact ⟨remove_job_keys_nodup s hnd name,
      fun k j1 h1 => remove_job_lookup s name k j1 h1⟩
  · intro name fn sch args kwargs en tags desc
    exact ⟨update_job_keys_nodup s hnd name fn sch args kwargs en tags desc,
      fun k j0 h0 =>
        update_job_lookup s name fn sch args kwargs en tags desc k j0 h0⟩
  · intro t t' o name
    exact ⟨run_job_now_keys_nodup s hnd t t' o name,
      fun k j0 h0 => run_job_now_lookup s t t' o name k j0 h0⟩
  · intro now
    constructor
    · show (((schedJobs now none s.jobs).1).map Prod.fst).Nodup
      rw [schedJobs_keys now s.jobs none]
      exact hnd
    · intro hpos
      refine schedJobs_rel now s.jobs none (by intro c hc; cases hc) ?_
      intro p hp c hc
      refine goodCad_of_pos ?_
      intro n u hcc
      exact hpos p hp n u (hcc ▸ hc)

/-- C8 witness: the invariant bundle evaluated on a concrete one-job
scheduler — uniqueness after a scheduling pass and monotone `run_count`
through a `run_job_now`. -/
theorem c8_amended_witness :
    (c8State.jobs.map Prod.fst).Nodup ∧
    ((scheduleAllJobs 7 c8State).jobs.map Prod.fst).Nodup ∧
    (∀ k j0, lookupKey c8State.jobs k = some j0 →
      ∃ j1, lookupKey
          (run_job_now 0 1 (Except.ok ()) c8State "z").1.jobs k = some j1 ∧
        j0.run_count ≤ j1.run_count ∧ j1.next_run = j0.next_run) :=
  ⟨by decide, ((c8_amended c8State (by decide)).2.2.2.2 7).1,
    ((c8_amended c8State (by decide)).2.2.2.1 0 1 (Except.ok ()) "z").2⟩

end InstaFlow
